import Mathlib

/-!
Shallow embedding of the logical replication writer processor
(pkg/ccl/streamingccl/logical/logical_replication_writer_processor.go).

The embedding covers:
- hlc timestamps (wall time, logical) with the Go comparison operations;
- roachpb keys as byte lists with the bytes comparison;
- the ingestionBuffer (addKV, reset, shouldFlushOnKVSize);
- the checkpoint quantization in bufferCheckpoint;
- the flush coordinator (maybeFlush, flush) as a pure state transformer;
- the sort-and-chunk partitioning of flushBuffer;
- the event dispatch switch of handleEvent.

Machine integers are modelled as Int (Nat where the Go value is a
non-negative count), with explicit bounds hypotheses where int64/int32
ranges matter.
-/

namespace LRW

/-! ### hlc timestamps -/

/-- An hlc.Timestamp: wall time in nanoseconds (int64) and a logical
counter (int32). -/
structure HLC where
  wall : Int
  logical : Int
deriving DecidableEq, Repr

/-- Go hlc.Timestamp.Less: lexicographic strict order on (wall, logical). -/
def HLC.less (t s : HLC) : Bool :=
  t.wall < s.wall || (t.wall = s.wall && t.logical < s.logical)

/-- Go hlc.Timestamp.LessEq: lexicographic non-strict order. -/
def HLC.lessEq (t s : HLC) : Bool :=
  t.wall < s.wall || (t.wall = s.wall && t.logical ≤ s.logical)

/-- Go hlc.Timestamp.After: t.After(s) holds when s is strictly less than t. -/
def HLC.after (t s : HLC) : Bool := s.less t

/-- Go hlc.Timestamp.IsEmpty: the zero timestamp. -/
def HLC.isEmpty (t : HLC) : Bool := t.wall = 0 && t.logical = 0

/-- Go hlc.Timestamp.Compare: three-way lexicographic comparison. -/
def HLC.cmp (t s : HLC) : Int :=
  if t.wall < s.wall then -1
  else if s.wall < t.wall then 1
  else if t.logical < s.logical then -1
  else if s.logical < t.logical then 1
  else 0

/-- hlc.MaxTimestamp: wall = math.MaxInt64, logical = math.MaxInt32. -/
def HLC.maxTimestamp : HLC := ⟨2 ^ 63 - 1, 2 ^ 31 - 1⟩

/-- A timestamp representable by the Go struct: wall fits in int64 and
logical fits in int32. -/
def HLC.valid (t : HLC) : Prop :=
  -(2 ^ 63) ≤ t.wall ∧ t.wall < 2 ^ 63 ∧ -(2 ^ 31) ≤ t.logical ∧ t.logical < 2 ^ 31

instance (t : HLC) : Decidable t.valid := by
  unfold HLC.valid; infer_instance

theorem HLC.valid_lessEq_max {t : HLC} (h : t.valid) : t.lessEq HLC.maxTimestamp = true := by
  obtain ⟨h1, h2, h3, h4⟩ := h
  simp only [HLC.lessEq, HLC.maxTimestamp, Bool.or_eq_true, decide_eq_true_eq,
    Bool.and_eq_true]
  omega

/-! ### keys and key-value pairs -/

/-- A roachpb.Key is a byte string, modelled as a list of naturals. -/
abbrev RKey := List Nat

/-- Go bytes.Compare on byte strings, as used by roachpb.Key.Compare:
lexicographic three-way comparison with shorter prefixes first. -/
def keyCmp : RKey → RKey → Int
  | [], [] => 0
  | [], _ :: _ => -1
  | _ :: _, [] => 1
  | a :: as, b :: bs => if a < b then -1 else if b < a then 1 else keyCmp as bs

/-- A roachpb.KeyValue: a key plus a value carrying raw bytes and the
MVCC timestamp. -/
structure KeyValue where
  key : RKey
  valRaw : List Nat
  valTS : HLC
deriving DecidableEq, Repr

/-- Size of a KeyValue. The Go kv.Size() is the generated protobuf size;
it is external to this repository and is modelled as the total number of
payload bytes. Only the additivity of sizes matters to the claims. -/
def KeyValue.size (kv : KeyValue) : Nat := kv.key.length + kv.valRaw.length

/-! ### ingestionBuffer -/

/-- The ingestionBuffer struct: the pending KV batch, its running byte
size, and the minimum value timestamp seen (for metrics). -/
structure ingestionBuffer where
  curKVBatch : List KeyValue
  curKVBatchSize : Nat
  minTimestamp : HLC
deriving DecidableEq, Repr

/-- NewIngestionBuffer: empty batch, zero size, minTimestamp = MaxTimestamp. -/
def NewIngestionBuffer : ingestionBuffer :=
  { curKVBatch := [], curKVBatchSize := 0, minTimestamp := HLC.maxTimestamp }

/-- ingestionBuffer.addKV: accumulate size, append the kv, lower the
minimum timestamp if the new value timestamp is strictly smaller. -/
def ingestionBuffer.addKV (b : ingestionBuffer) (kv : KeyValue) : ingestionBuffer :=
  { curKVBatch := b.curKVBatch ++ [kv],
    curKVBatchSize := b.curKVBatchSize + kv.size,
    minTimestamp := if kv.valTS.less b.minTimestamp then kv.valTS else b.minTimestamp }

/-- ingestionBuffer.reset: back to the empty state (curKVBatch[:0] is the
empty sequence). -/
def ingestionBuffer.reset (_ : ingestionBuffer) : ingestionBuffer := NewIngestionBuffer

/-- Fold a sequence of addKV calls over a buffer, in order. -/
def addAll (b : ingestionBuffer) (kvs : List KeyValue) : ingestionBuffer :=
  kvs.foldl ingestionBuffer.addKV b

/-- ingestionBuffer.shouldFlushOnKVSize, taking the two cluster settings
(kv_buffer_size and kv_buffer_target_length, both Go int64 values) as
arguments. Returns (shouldFlush, mustFlush). -/
def ingestionBuffer.shouldFlushOnKVSize
    (b : ingestionBuffer) (kvBufMax kvBufLenTarget : Int) : Bool × Bool :=
  if 0 < kvBufMax ∧ kvBufMax ≤ (b.curKVBatchSize : Int) then (true, true)
  else if kvBufLenTarget ≤ (b.curKVBatch.length : Int) then (true, false)
  else (false, false)

/-! ### spans, resolved spans, and checkpoint quantization -/

/-- A roachpb.Span: start key and end key. -/
abbrev Span := RKey × RKey

/-- A jobspb.ResolvedSpan: a span plus its resolved timestamp. -/
structure RSpan where
  span : Span
  ts : HLC
deriving DecidableEq, Repr

/-- The per-span timestamp rewrite performed by bufferCheckpoint: when the
quantization setting d is positive and the resolved timestamp is strictly
after the initial scan timestamp, zero the logical component and subtract
WallTime % d from the wall time (Go % on int64 is truncated modulo, Int.tmod).
Otherwise the timestamp is left unchanged. -/
def quantizeTS (d : Int) (initialScanTS : HLC) (ts : HLC) : HLC :=
  if 0 < d ∧ ts.after initialScanTS = true then ⟨ts.wall - ts.wall.tmod d, 0⟩ else ts

/-- Modelled from the spec: the external span.Frontier.Forward capability.
The frontier maps spans to timestamps; forwarding a span only ever
increases its recorded timestamp (monotonic per span), and a span not yet
tracked is added. Sub-span splitting and coalescing are irrelevant to the
claims and are not modelled. -/
def frontierForward (f : List (Span × HLC)) (sp : Span) (ts : HLC) : List (Span × HLC) :=
  if (f.map Prod.fst).contains sp then
    f.map (fun e => if e.1 = sp ∧ e.2.less ts = true then (e.1, ts) else e)
  else f ++ [(sp, ts)]

/-- bufferKVs: errors when the kv slice is nil, otherwise adds every kv to
the buffer. -/
def bufferKVsModel (b : ingestionBuffer) (kvs : Option (List KeyValue)) :
    Except String ingestionBuffer :=
  match kvs with
  | none => .error "kv event expected to have kv"
  | some l => .ok (addAll b l)

/-- bufferCheckpoint: errors when the resolved-span slice is nil, otherwise
forwards each resolved span into the frontier after quantizing its
timestamp with quantizeTS. -/
def bufferCheckpointModel (d : Int) (initialScanTS : HLC) (f : List (Span × HLC))
    (resolved : Option (List RSpan)) : Except String (List (Span × HLC)) :=
  match resolved with
  | none => .error "checkpoint event expected to have resolved spans"
  | some rs =>
    .ok (rs.foldl (fun acc r => frontierForward acc r.span (quantizeTS d initialScanTS r.ts)) f)

/-! ### the event dispatch switch of handleEvent -/

/-- The streamingccl.Event variants reaching handleEvent. A KV event
carries a possibly-nil kv slice; a checkpoint event carries a possibly-nil
resolved-span slice. -/
inductive StreamEvent where
  | kvEvent (kvs : Option (List KeyValue))
  | checkpointEvent (resolved : Option (List RSpan))
  | sstableEvent
  | deleteRangeEvent
  | splitEvent
  | unknownEvent
deriving DecidableEq, Repr

/-- State touched by event dispatch: the ingestion buffer and the frontier. -/
structure DispatchState where
  buffer : ingestionBuffer
  frontier : List (Span × HLC)
deriving DecidableEq, Repr

/-- Outcome of handleEvent dispatch: a runtime panic, an ordinary error
returned to the caller, or a new state. -/
inductive DispatchOutcome where
  | panics
  | fails (msg : String)
  | ok (st : DispatchState)
deriving DecidableEq, Repr

/-- The dispatch portion of handleEvent. Before the switch, handleEvent
records AdmitLatency from event.GetKVs()[0] whenever the event type is
KVEvent; indexing a nil or empty slice there is a Go runtime panic that
happens before the nil check inside bufferKVs can return an error. -/
def handleEventDispatch (d : Int) (initialScanTS : HLC) (ev : StreamEvent)
    (st : DispatchState) : DispatchOutcome :=
  match ev with
  | .kvEvent kvs =>
    match kvs with
    | none => .panics
    | some [] => .panics
    | some l =>
      match bufferKVsModel st.buffer (some l) with
      | .error m => .fails m
      | .ok b2 => .ok { st with buffer := b2 }
  | .checkpointEvent r =>
    match bufferCheckpointModel d initialScanTS st.frontier r with
    | .error m => .fails m
    | .ok f2 => .ok { st with frontier := f2 }
  | .sstableEvent => .fails "unexpected event for online stream"
  | .deleteRangeEvent => .fails "unexpected event for online stream"
  | .splitEvent => .ok st
  | .unknownEvent => .fails "unknown streaming event type"

/-! ### the flush coordinator: flush and maybeFlush -/

/-- A flushableBuffer: the retired buffer paired with the checkpoint
snapshot taken at flush time. -/
structure flushableBuffer where
  buffer : ingestionBuffer
  checkpoint : List (Span × HLC)
deriving DecidableEq, Repr

/-- The checkpoint built by flush: every frontier entry whose timestamp is
non-empty, in frontier iteration order. -/
def mkCheckpoint (entries : List (Span × HLC)) : List (Span × HLC) :=
  entries.filter (fun e => !e.2.isEmpty)

/-- Coordinator state seen by flush and maybeFlush. frontierTS models
lrw.frontier.Frontier() and frontierEntries the frontier entry iteration. -/
structure FlushState where
  buffer : ingestionBuffer
  frontierEntries : List (Span × HLC)
  frontierTS : HLC
  lastFlushFrontier : HLC
  flushInProgress : Bool
deriving DecidableEq, Repr

/-- flush: swap in a fresh buffer (getBuffer yields a reset, hence empty,
pooled buffer), snapshot the frontier into a checkpoint, and hand the
retired buffer plus checkpoint to the flush loop. The handoff select
either succeeds (recording the new last-flushed-frontier watermark) or
observes the stop signal, abandoning the flush without error; the
handoffAccepted argument selects the branch. -/
def flushModel (handoffAccepted : Bool) (st : FlushState) :
    FlushState × Option flushableBuffer :=
  let bufferToFlush := st.buffer
  let checkpoint := mkCheckpoint st.frontierEntries
  if handoffAccepted then
    ({ st with buffer := NewIngestionBuffer, lastFlushFrontier := st.frontierTS },
      some { buffer := bufferToFlush, checkpoint := checkpoint })
  else
    ({ st with buffer := NewIngestionBuffer }, none)

/-- maybeFlush: no-op when a flush is in progress, or when the buffer is
empty and the frontier has not advanced past the last flushed frontier;
otherwise exactly flush. -/
def maybeFlushModel (handoffAccepted : Bool) (st : FlushState) :
    FlushState × Option flushableBuffer :=
  if st.flushInProgress then (st, none)
  else if st.buffer.curKVBatch = [] ∧ st.frontierTS.lessEq st.lastFlushFrontier = true then
    (st, none)
  else flushModel handoffAccepted st

/-! ### the flushBuffer sort-and-chunk partitioning -/

instance : Inhabited KeyValue := ⟨⟨[], [], ⟨0, 0⟩⟩⟩

/-- The closure k in flushBuffer: keys.EnsureSafeSplitKey when it
succeeds, the raw key on error. EnsureSafeSplitKey is external to this
repository, so it is passed in as an arbitrary function returning none on
error. -/
def splitKeyOf (ensureSafeSplitKey : RKey → Option RKey) (kv : KeyValue) : RKey :=
  match ensureSafeSplitKey kv.key with
  | some p => p
  | none => kv.key

/-- The comparator passed to slices.SortFunc in flushBuffer: split-safe
keys first, value timestamps second. -/
def kvCmp (sk : KeyValue → RKey) (a b : KeyValue) : Int :=
  if keyCmp (sk a) (sk b) ≠ 0 then keyCmp (sk a) (sk b)
  else HLC.cmp a.valTS b.valTS

/-- The non-strict order induced by the flushBuffer comparator. -/
def kvLE (sk : KeyValue → RKey) (a b : KeyValue) : Bool := kvCmp sk a b ≤ 0

/-- The slices.SortFunc call in flushBuffer: sort the kv batch by the
comparator. slices.SortFunc is Go library code whose contract is a sorted
permutation; it is modelled by mergeSort. -/
def sortKVs (sk : KeyValue → RKey) (kvs : List KeyValue) : List KeyValue :=
  List.mergeSort kvs (kvLE sk)

/-- The inner boundary-extension loop of flushBuffer: the chunk end is
advanced while it falls strictly inside a run of identical split-safe
keys. -/
def extendChunk (sk : KeyValue → RKey) (kvs : List KeyValue) (e : Nat) : Nat :=
  if h : e < kvs.length ∧ sk (kvs.getD (e - 1) default) = sk (kvs.getD e default) then
    extendChunk sk kvs (e + 1)
  else e
termination_by kvs.length - e
decreasing_by omega

/-- The chunk size chosen by flushBuffer:
max((len(kvs)/len(lrw.bh))+1, batchSize). -/
def chunkSizeOf (numWorkers batchSize len : Nat) : Nat :=
  max (len / numWorkers + 1) batchSize

/-- The worker loop of flushBuffer, returning the (chunkStart, chunkEnd)
pair handed to each worker: one iteration per worker, stopping early when
the chunk start reaches the input length. -/
def chunkBoundsFrom (sk : KeyValue → RKey) (kvs : List KeyValue) (chunkSize : Nat) :
    Nat → Nat → List (Nat × Nat)
  | 0, _ => []
  | w + 1, s =>
    if kvs.length ≤ s then []
    else
      let e := extendChunk sk kvs (min (s + chunkSize) kvs.length)
      (s, e) :: chunkBoundsFrom sk kvs chunkSize w e

/-- The same worker loop, returning the value of chunkStart after the
loop: the quantity compared against len(kvs) by the assertion guard. -/
def chunkLoopEnd (sk : KeyValue → RKey) (kvs : List KeyValue) (chunkSize : Nat) :
    Nat → Nat → Nat
  | 0, s => s
  | w + 1, s =>
    if kvs.length ≤ s then s
    else chunkLoopEnd sk kvs chunkSize w (extendChunk sk kvs (min (s + chunkSize) kvs.length))

/-- The number of writer workers: len(lrw.bh), fixed to maxWriterWorkers. -/
def maxWriterWorkers : Nat := 32

/-- The full partitioning performed by flushBuffer on a non-empty batch:
sort, then cut into worker chunks. -/
def flushChunks (sk : KeyValue → RKey) (batchSize numWorkers : Nat)
    (kvs : List KeyValue) : List (Nat × Nat) :=
  let sorted := sortKVs sk kvs
  chunkBoundsFrom sk sorted (chunkSizeOf numWorkers batchSize sorted.length) numWorkers 0

/-- Contiguous slice of a list: the elements at indices s, s+1, ..., e-1. -/
def sliceOf (l : List KeyValue) (s e : Nat) : List KeyValue :=
  (l.drop s).take (e - s)

/-- Fueled form of the per-worker sub-batch loop: starting at batchStart,
repeatedly take min(batchStart+batchSize, chunkEnd) as the batch end. The
fuel only serves termination; with batchSize at least one, chunkEnd minus
batchStart steps suffice. -/
def workerBatchesAux (batchSize : Nat) : Nat → Nat → Nat → List (Nat × Nat)
  | 0, _, _ => []
  | f + 1, s, e =>
    if s < e then (s, min (s + batchSize) e) :: workerBatchesAux batchSize f (min (s + batchSize) e) e
    else []

/-- The sub-batch index ranges a worker hands to HandleBatch for the chunk
with bounds s and e, in processing order. -/
def workerBatches (batchSize s e : Nat) : List (Nat × Nat) :=
  workerBatchesAux batchSize (e - s) s e

/-- All kvs a worker processes, as the in-order concatenation of its
sub-batch slices. -/
def workerProcessed (batchSize s e : Nat) (l : List KeyValue) : List KeyValue :=
  ((workerBatches batchSize s e).map (fun p => sliceOf l p.1 p.2)).flatten

/-- flushBuffer on a flushableBuffer: an empty batch releases the buffer
and returns the checkpoint unchanged; otherwise the batch is sorted and
chunked, and the same checkpoint is returned for downstream delivery. -/
def flushBufferModel (sk : KeyValue → RKey) (batchSize numWorkers : Nat)
    (b : flushableBuffer) : List (Nat × Nat) × List (Span × HLC) :=
  if b.buffer.curKVBatch = [] then ([], b.checkpoint)
  else (flushChunks sk batchSize numWorkers b.buffer.curKVBatch, b.checkpoint)

/-! ### order lemmas for the comparators -/

theorem keyCmp_self : ∀ (a : RKey), keyCmp a a = 0
  | [] => rfl
  | x :: xs => by
    simp only [keyCmp, lt_self_iff_false, if_false]
    exact keyCmp_self xs

theorem keyCmp_neg : ∀ (a b : RKey), keyCmp b a = -keyCmp a b
  | [], [] => rfl
  | [], _ :: _ => rfl
  | _ :: _, [] => rfl
  | a :: as, b :: bs => by
    have ih := keyCmp_neg as bs
    simp only [keyCmp]
    split_ifs <;> omega

theorem keyCmp_eq_zero : ∀ (a b : RKey), keyCmp a b = 0 → a = b
  | [], [], _ => rfl
  | [], _ :: _, h => by simp [keyCmp] at h
  | _ :: _, [], h => by simp [keyCmp] at h
  | a :: as, b :: bs, h => by
    simp only [keyCmp] at h
    by_cases h1 : a < b
    · rw [if_pos h1] at h; omega
    · by_cases h2 : b < a
      · rw [if_neg h1, if_pos h2] at h; omega
      · have hab : a = b := by omega
        rw [if_neg h1, if_neg h2] at h
        rw [hab, keyCmp_eq_zero as bs h]

theorem keyCmp_cons_nonpos (a b : Nat) (as bs : RKey) :
    keyCmp (a :: as) (b :: bs) ≤ 0 ↔ a < b ∨ (a = b ∧ keyCmp as bs ≤ 0) := by
  simp only [keyCmp]
  by_cases h1 : a < b
  · simp only [if_pos h1]; omega
  · by_cases h2 : b < a
    · simp only [if_neg h1, if_pos h2]; omega
    · simp only [if_neg h1, if_neg h2]; omega

theorem keyCmp_trans : ∀ (a b c : RKey),
    keyCmp a b ≤ 0 → keyCmp b c ≤ 0 → keyCmp a c ≤ 0
  | [], _, [], _, _ => by norm_num [keyCmp]
  | [], _, _ :: _, _, _ => by norm_num [keyCmp]
  | _ :: _, [], _, h1, _ => by norm_num [keyCmp] at h1
  | _ :: _, _ :: _, [], _, h2 => by norm_num [keyCmp] at h2
  | a :: as, b :: bs, c :: cs, h1, h2 => by
    rw [keyCmp_cons_nonpos] at h1 h2 ⊢
    rcases h1 with h1 | ⟨rfl, h1⟩
    · rcases h2 with h2 | ⟨rfl, _⟩
      · exact Or.inl (Nat.lt_trans h1 h2)
      · exact Or.inl h1
    · rcases h2 with h2 | ⟨rfl, h2⟩
      · exact Or.inl h2
      · exact Or.inr ⟨rfl, keyCmp_trans as bs cs h1 h2⟩

theorem keyCmp_antisymm {a b : RKey} (h1 : keyCmp a b ≤ 0) (h2 : keyCmp b a ≤ 0) : a = b := by
  apply keyCmp_eq_zero
  rw [keyCmp_neg a b] at h2
  omega

theorem HLC.cmp_nonpos_iff (t s : HLC) :
    t.cmp s ≤ 0 ↔ t.wall < s.wall ∨ (t.wall = s.wall ∧ t.logical ≤ s.logical) := by
  unfold HLC.cmp
  split_ifs <;> omega

theorem HLC.cmp_neg (t s : HLC) : HLC.cmp s t = -HLC.cmp t s := by
  unfold HLC.cmp
  split_ifs <;> omega

theorem HLC.lessEq_iff (t s : HLC) :
    t.lessEq s = true ↔ t.wall < s.wall ∨ (t.wall = s.wall ∧ t.logical ≤ s.logical) := by
  simp only [HLC.lessEq, Bool.or_eq_true, Bool.and_eq_true, decide_eq_true_eq]

theorem HLC.less_iff (t s : HLC) :
    t.less s = true ↔ t.wall < s.wall ∨ (t.wall = s.wall ∧ t.logical < s.logical) := by
  simp only [HLC.less, Bool.or_eq_true, Bool.and_eq_true, decide_eq_true_eq]

theorem HLC.cmp_nonpos_iff_lessEq (t s : HLC) : t.cmp s ≤ 0 ↔ t.lessEq s = true := by
  rw [HLC.cmp_nonpos_iff, HLC.lessEq_iff]

theorem kvCmp_nonpos_iff (sk : KeyValue → RKey) (a b : KeyValue) :
    kvCmp sk a b ≤ 0 ↔
      keyCmp (sk a) (sk b) < 0 ∨
        (keyCmp (sk a) (sk b) = 0 ∧ HLC.cmp a.valTS b.valTS ≤ 0) := by
  unfold kvCmp
  split_ifs with h <;> omega

theorem kvCmp_neg (sk : KeyValue → RKey) (a b : KeyValue) :
    kvCmp sk b a = -kvCmp sk a b := by
  unfold kvCmp
  rw [keyCmp_neg (sk a) (sk b), HLC.cmp_neg a.valTS b.valTS]
  split_ifs with h1 h2 <;> omega

theorem kvLE_iff (sk : KeyValue → RKey) (a b : KeyValue) :
    kvLE sk a b = true ↔ kvCmp sk a b ≤ 0 := by
  simp only [kvLE, decide_eq_true_eq]

theorem kvLE_total (sk : KeyValue → RKey) (a b : KeyValue) :
    (kvLE sk a b || kvLE sk b a) = true := by
  simp only [Bool.or_eq_true, kvLE_iff]
  rw [kvCmp_neg sk a b]
  omega

theorem kvLE_trans (sk : KeyValue → RKey) (a b c : KeyValue)
    (h1 : kvLE sk a b = true) (h2 : kvLE sk b c = true) : kvLE sk a c = true := by
  rw [kvLE_iff] at h1 h2 ⊢
  rw [kvCmp_nonpos_iff] at h1 h2 ⊢
  rcases h1 with h1 | ⟨h1, h1t⟩
  · rcases h2 with h2 | ⟨h2, _⟩
    · left
      have hac := keyCmp_trans (sk a) (sk b) (sk c) (by omega) (by omega)
      rcases lt_or_eq_of_le hac with h | h
      · exact h
      · exfalso
        have hk := keyCmp_eq_zero _ _ h
        rw [← hk] at h2
        rw [keyCmp_neg (sk a) (sk b)] at h2
        omega
    · left
      rw [← keyCmp_eq_zero _ _ h2]
      exact h1
  · rcases h2 with h2 | ⟨h2, h2t⟩
    · left
      rw [keyCmp_eq_zero _ _ h1]
      exact h2
    · right
      constructor
      · rw [keyCmp_eq_zero _ _ h1]; exact h2
      · rw [HLC.cmp_nonpos_iff] at h1t h2t ⊢
        omega

/-- keyCmp nonpositivity between kvLE-related elements. -/
theorem kvLE_keyCmp {sk : KeyValue → RKey} {a b : KeyValue}
    (h : kvLE sk a b = true) : keyCmp (sk a) (sk b) ≤ 0 := by
  rw [kvLE_iff, kvCmp_nonpos_iff] at h
  omega

/-- Between two kvLE-related elements with equal split-safe keys, value
timestamps are non-decreasing. -/
theorem kvLE_ts_of_eq_key {sk : KeyValue → RKey} {a b : KeyValue}
    (h : kvLE sk a b = true) (hk : sk a = sk b) : a.valTS.lessEq b.valTS = true := by
  rw [kvLE_iff, kvCmp_nonpos_iff] at h
  rw [hk, keyCmp_self] at h
  rw [← HLC.cmp_nonpos_iff_lessEq]
  omega

/-! ### sortedness of the flushBuffer sort -/

theorem sortKVs_pairwise (sk : KeyValue → RKey) (kvs : List KeyValue) :
    (sortKVs sk kvs).Pairwise (fun a b => kvLE sk a b = true) :=
  List.sorted_mergeSort (kvLE_trans sk) (kvLE_total sk) kvs

theorem sortKVs_perm (sk : KeyValue → RKey) (kvs : List KeyValue) :
    (sortKVs sk kvs).Perm kvs :=
  List.mergeSort_perm kvs (kvLE sk)

theorem sortKVs_length (sk : KeyValue → RKey) (kvs : List KeyValue) :
    (sortKVs sk kvs).length = kvs.length :=
  List.length_mergeSort kvs

theorem getD_of_lt (l : List KeyValue) (n : Nat) (h : n < l.length) :
    l.getD n default = l[n] := by
  simp [List.getD_eq_getElem?_getD, List.getElem?_eq_getElem h]

/-- In a list sorted by the flushBuffer comparator, any position between
two positions holding equal split-safe keys holds that same key. -/
theorem sorted_key_between {sk : KeyValue → RKey} {l : List KeyValue}
    (hs : l.Pairwise (fun a b => kvLE sk a b = true))
    {i m j : Nat} (him : i ≤ m) (hmj : m ≤ j) (hj : j < l.length)
    (hk : sk (l[i]) = sk (l[j])) : sk (l[m]) = sk (l[i]) := by
  have hi : i < l.length := by omega
  have hm : m < l.length := by omega
  rw [List.pairwise_iff_getElem] at hs
  rcases Nat.eq_or_lt_of_le him with rfl | him2
  · rfl
  rcases Nat.eq_or_lt_of_le hmj with rfl | hmj2
  · exact hk.symm
  · have h1 := kvLE_keyCmp (hs i m hi hm him2)
    have h2 := kvLE_keyCmp (hs m j hm hj hmj2)
    rw [← hk] at h2
    exact keyCmp_antisymm h2 h1

/-! ### properties of the chunk boundary extension -/

theorem extendChunk_ge (sk : KeyValue → RKey) (kvs : List KeyValue) (e : Nat) :
    e ≤ extendChunk sk kvs e := by
  rw [extendChunk]
  split_ifs with h
  · have := extendChunk_ge sk kvs (e + 1)
    omega
  · exact le_refl e
termination_by kvs.length - e
decreasing_by omega

theorem extendChunk_le (sk : KeyValue → RKey) (kvs : List KeyValue) (e : Nat)
    (he : e ≤ kvs.length) : extendChunk sk kvs e ≤ kvs.length := by
  rw [extendChunk]
  split_ifs with h
  · exact extendChunk_le sk kvs (e + 1) (by omega)
  · exact he
termination_by kvs.length - e
decreasing_by omega

/-- After extension, a chunk end strictly inside the input never splits a
run of identical split-safe keys. -/
theorem extendChunk_boundary (sk : KeyValue → RKey) (kvs : List KeyValue) (e : Nat)
    (hlt : extendChunk sk kvs e < kvs.length) :
    ¬ sk (kvs.getD (extendChunk sk kvs e - 1) default)
      = sk (kvs.getD (extendChunk sk kvs e) default) := by
  rw [extendChunk] at hlt ⊢
  split_ifs at hlt ⊢ with h
  · exact extendChunk_boundary sk kvs (e + 1) hlt
  · intro hcontra
    exact h ⟨hlt, hcontra⟩
termination_by kvs.length - e
decreasing_by omega

/-! ### properties of the worker chunk loop -/

/-- Every chunk produced by the worker loop has its start below the input
length, start at most end, end at most the input length, and an end that
never splits a run of identical split-safe keys. -/
theorem chunkBoundsFrom_mem (sk : KeyValue → RKey) (kvs : List KeyValue)
    (chunkSize : Nat) :
    ∀ (w s : Nat), ∀ p ∈ chunkBoundsFrom sk kvs chunkSize w s,
      p.1 < kvs.length ∧ p.1 ≤ p.2 ∧ p.2 ≤ kvs.length ∧
        (p.2 < kvs.length →
          ¬ sk (kvs.getD (p.2 - 1) default) = sk (kvs.getD p.2 default)) := by
  intro w
  induction w with
  | zero => intro s p hp; simp [chunkBoundsFrom] at hp
  | succ n ih =>
    intro s p hp
    rw [chunkBoundsFrom] at hp
    split_ifs at hp with h
    · simp at hp
    · rcases List.mem_cons.mp hp with rfl | hp2
      · have h1 := extendChunk_ge sk kvs (min (s + chunkSize) kvs.length)
        have h2 := extendChunk_le sk kvs (min (s + chunkSize) kvs.length) (by omega)
        refine ⟨?_, ?_, ?_, ?_⟩
        · show s < kvs.length
          omega
        · show s ≤ extendChunk sk kvs (min (s + chunkSize) kvs.length)
          omega
        · show extendChunk sk kvs (min (s + chunkSize) kvs.length) ≤ kvs.length
          exact h2
        · intro hlt
          exact extendChunk_boundary sk kvs _ hlt
      · exact ih _ p hp2

/-- After the worker loop, the next chunk start has reached the input
length, provided the total capacity of the workers covers the input. -/
theorem chunkLoopEnd_covers (sk : KeyValue → RKey) (kvs : List KeyValue)
    (chunkSize : Nat) :
    ∀ (w s : Nat), s ≤ kvs.length → kvs.length ≤ s + w * chunkSize →
      chunkLoopEnd sk kvs chunkSize w s = kvs.length := by
  intro w
  induction w with
  | zero =>
    intro s h1 h2
    simp only [chunkLoopEnd]
    omega
  | succ n ih =>
    intro s h1 h2
    rw [chunkLoopEnd]
    split_ifs with h
    · omega
    · rw [Nat.succ_mul] at h2
      have hge := extendChunk_ge sk kvs (min (s + chunkSize) kvs.length)
      have hle := extendChunk_le sk kvs (min (s + chunkSize) kvs.length) (by omega)
      exact ih _ hle (by omega)

/-! ### properties of the per-worker sub-batch loop -/

theorem sliceOf_append (l : List KeyValue) (s m e : Nat) (h1 : s ≤ m) (h2 : m ≤ e) :
    sliceOf l s m ++ sliceOf l m e = sliceOf l s e := by
  unfold sliceOf
  have hd : l.drop m = (l.drop s).drop (m - s) := by
    rw [List.drop_drop]
    congr 1
    omega
  rw [hd]
  have he : e - s = (m - s) + (e - m) := by omega
  rw [he, List.take_add]

/-- With a positive batch size, the given fuel suffices and the in-order
concatenation of a worker's sub-batch slices is exactly the chunk slice. -/
theorem workerBatchesAux_flatten (batchSize : Nat) (hbs : 1 ≤ batchSize)
    (l : List KeyValue) :
    ∀ (f s e : Nat), e ≤ s + f →
      ((workerBatchesAux batchSize f s e).map (fun p => sliceOf l p.1 p.2)).flatten
        = sliceOf l s e := by
  intro f
  induction f with
  | zero =>
    intro s e hf
    simp only [workerBatchesAux, List.map_nil, List.flatten_nil]
    unfold sliceOf
    have : e - s = 0 := by omega
    rw [this]
    simp
  | succ n ih =>
    intro s e hf
    rw [workerBatchesAux]
    split_ifs with h
    · simp only [List.map_cons, List.flatten_cons]
      rw [ih (min (s + batchSize) e) e (by omega)]
      exact sliceOf_append l s (min (s + batchSize) e) e (by omega) (by omega)
    · simp only [List.map_nil, List.flatten_nil]
      unfold sliceOf
      have : e - s = 0 := by omega
      rw [this]
      simp

/-- The in-order concatenation of a worker's sub-batches is the whole
chunk. -/
theorem workerProcessed_eq_slice (batchSize : Nat) (hbs : 1 ≤ batchSize)
    (l : List KeyValue) (s e : Nat) :
    workerProcessed batchSize s e l = sliceOf l s e := by
  unfold workerProcessed workerBatches
  exact workerBatchesAux_flatten batchSize hbs l (e - s) s e (by omega)

/-- The assertion guard at the end of the worker loop: flushBuffer panics
exactly when the final chunk start differs from the input length. -/
def flushChunkEnd (sk : KeyValue → RKey) (batchSize numWorkers : Nat)
    (kvs : List KeyValue) : Nat :=
  let sorted := sortKVs sk kvs
  chunkLoopEnd sk sorted (chunkSizeOf numWorkers batchSize sorted.length) numWorkers 0

/-- Key-locality of the chunk partition, for an arbitrary split-safe key
function. -/
theorem chunks_key_locality (sk : KeyValue → RKey) (batchSize numWorkers : Nat)
    (kvs : List KeyValue) (i j s e : Nat)
    (hmem : (s, e) ∈ flushChunks sk batchSize numWorkers kvs)
    (hij : i < j) (hj : j < (sortKVs sk kvs).length)
    (hkey : sk ((sortKVs sk kvs)[i]) = sk ((sortKVs sk kvs)[j]))
    (hsi : s ≤ i) (hie : i < e) :
    s ≤ j ∧ j < e := by
  have hs := sortKVs_pairwise sk kvs
  have hmem2 := chunkBoundsFrom_mem sk (sortKVs sk kvs)
    (chunkSizeOf numWorkers batchSize (sortKVs sk kvs).length) numWorkers 0 (s, e) hmem
  obtain ⟨hslen, hse, helen, hbound⟩ := hmem2
  refine ⟨by omega, ?_⟩
  by_contra hje
  have hej : e ≤ j := by omega
  have helt : e < (sortKVs sk kvs).length := by omega
  have hb := hbound helt
  have h1 : sk ((sortKVs sk kvs)[e - 1]) = sk ((sortKVs sk kvs)[i]) :=
    sorted_key_between hs (by omega) (by omega) hj hkey
  have h2 : sk ((sortKVs sk kvs)[e]) = sk ((sortKVs sk kvs)[i]) :=
    sorted_key_between hs (by omega) hej hj hkey
  rw [getD_of_lt _ _ (by omega), getD_of_lt _ _ helt] at hb
  exact hb (h1.trans h2.symm)

/-- C1: for every input buffer of key-value mutations and every worker
count, the chunk partitioning in flushBuffer never places two mutations
with equal split-safe key (EnsureSafeSplitKey-normalized, falling back to
the raw key) into different chunks: a chunk of the sorted batch that
contains position i also contains any later position j holding an equal
split-safe key, because every chunk boundary is extended forward past any
run of identical split-safe keys. -/
theorem flushBuffer_chunking_key_locality
    (ensureSafeSplitKey : RKey → Option RKey) (batchSize numWorkers : Nat)
    (kvs : List KeyValue) (i j s e : Nat)
    (hmem : (s, e) ∈ flushChunks (splitKeyOf ensureSafeSplitKey) batchSize numWorkers kvs)
    (hij : i < j) (hj : j < (sortKVs (splitKeyOf ensureSafeSplitKey) kvs).length)
    (hkey : splitKeyOf ensureSafeSplitKey ((sortKVs (splitKeyOf ensureSafeSplitKey) kvs)[i])
      = splitKeyOf ensureSafeSplitKey ((sortKVs (splitKeyOf ensureSafeSplitKey) kvs)[j]))
    (hsi : s ≤ i) (hie : i < e) :
    s ≤ j ∧ j < e :=
  chunks_key_locality (splitKeyOf ensureSafeSplitKey) batchSize numWorkers kvs
    i j s e hmem hij hj hkey hsi hie

unseal List.merge List.mergeSort extendChunk in
theorem flushBuffer_chunking_key_locality_witness :
    (0, 2) ∈ flushChunks (splitKeyOf (fun _ => none)) 1 2
        [⟨[0], [], ⟨2, 0⟩⟩, ⟨[0], [], ⟨1, 0⟩⟩]
      ∧ (0 ≤ 1 ∧ 1 < 2) :=
  ⟨by decide,
    flushBuffer_chunking_key_locality (fun _ => none) 1 2
      [⟨[0], [], ⟨2, 0⟩⟩, ⟨[0], [], ⟨1, 0⟩⟩] 0 1 0 2
      (by decide) (by decide) (by decide) (by decide) (by decide) (by decide)⟩

/-- C2: within any single chunk produced by flushBuffer, mutations with
the same split-safe key are applied in non-decreasing source-timestamp
order: the whole batch is sorted by (split-safe key, value timestamp)
ascending, same-key positions i before j in a chunk carry non-decreasing
value timestamps, and a worker processes its chunk as the in-order
concatenation of its sub-batches, from chunk start to chunk end. -/
theorem flushBuffer_chunk_timestamp_order
    (ensureSafeSplitKey : RKey → Option RKey) (batchSize numWorkers : Nat)
    (hbs : 1 ≤ batchSize) (kvs : List KeyValue) (i j s e : Nat)
    (_hmem : (s, e) ∈ flushChunks (splitKeyOf ensureSafeSplitKey) batchSize numWorkers kvs)
    (_hsi : s ≤ i) (hij : i < j) (_hje : j < e)
    (hj : j < (sortKVs (splitKeyOf ensureSafeSplitKey) kvs).length)
    (hkey : splitKeyOf ensureSafeSplitKey ((sortKVs (splitKeyOf ensureSafeSplitKey) kvs)[i])
      = splitKeyOf ensureSafeSplitKey ((sortKVs (splitKeyOf ensureSafeSplitKey) kvs)[j])) :
    (sortKVs (splitKeyOf ensureSafeSplitKey) kvs).Pairwise
        (fun a b => kvLE (splitKeyOf ensureSafeSplitKey) a b = true)
      ∧ ((sortKVs (splitKeyOf ensureSafeSplitKey) kvs)[i]).valTS.lessEq
          ((sortKVs (splitKeyOf ensureSafeSplitKey) kvs)[j]).valTS = true
      ∧ workerProcessed batchSize s e (sortKVs (splitKeyOf ensureSafeSplitKey) kvs)
          = sliceOf (sortKVs (splitKeyOf ensureSafeSplitKey) kvs) s e := by
  have hs := sortKVs_pairwise (splitKeyOf ensureSafeSplitKey) kvs
  refine ⟨hs, ?_, ?_⟩
  · have hle := (List.pairwise_iff_getElem.mp hs) i j (by omega) hj hij
    exact kvLE_ts_of_eq_key hle hkey
  · exact workerProcessed_eq_slice batchSize hbs _ s e

unseal List.merge List.mergeSort extendChunk in
theorem flushBuffer_chunk_timestamp_order_witness :
    1 ≤ 1
      ∧ (0, 2) ∈ flushChunks (splitKeyOf (fun _ => none)) 1 2
          [⟨[0], [], ⟨2, 0⟩⟩, ⟨[0], [], ⟨1, 0⟩⟩]
      ∧ (((sortKVs (splitKeyOf (fun _ => none))
            [⟨[0], [], ⟨2, 0⟩⟩, ⟨[0], [], ⟨1, 0⟩⟩]).get ⟨0, by decide⟩).valTS.lessEq
          (((sortKVs (splitKeyOf (fun _ => none))
            [⟨[0], [], ⟨2, 0⟩⟩, ⟨[0], [], ⟨1, 0⟩⟩]).get ⟨1, by decide⟩).valTS) = true) :=
  ⟨by decide, by decide,
    (flushBuffer_chunk_timestamp_order (fun _ => none) 1 2 (by decide)
      [⟨[0], [], ⟨2, 0⟩⟩, ⟨[0], [], ⟨1, 0⟩⟩] 0 1 0 2
      (by decide) (by decide) (by decide) (by decide) (by decide) (by decide)).2.1⟩

/-- C7: the chunk-assignment loop of flushBuffer assigns every mutation
to some worker's chunk: for any input and any positive worker-pool size,
the chunk start after the loop equals the input length, so the
assertion-failure panic guarding full coverage is unreachable. -/
theorem flushBuffer_chunk_assignment_total
    (ensureSafeSplitKey : RKey → Option RKey) (batchSize numWorkers : Nat)
    (hnw : 1 ≤ numWorkers) (kvs : List KeyValue) :
    flushChunkEnd (splitKeyOf ensureSafeSplitKey) batchSize numWorkers kvs = kvs.length := by
  have hlen := sortKVs_length (splitKeyOf ensureSafeSplitKey) kvs
  rw [← hlen]
  unfold flushChunkEnd
  apply chunkLoopEnd_covers
  · exact Nat.zero_le _
  · have h1 := Nat.div_add_mod (sortKVs (splitKeyOf ensureSafeSplitKey) kvs).length numWorkers
    have h2 := Nat.mod_lt (sortKVs (splitKeyOf ensureSafeSplitKey) kvs).length
      (show 0 < numWorkers by omega)
    have h3 : numWorkers * ((sortKVs (splitKeyOf ensureSafeSplitKey) kvs).length / numWorkers + 1)
        = numWorkers * ((sortKVs (splitKeyOf ensureSafeSplitKey) kvs).length / numWorkers)
          + numWorkers := by
      rw [Nat.mul_succ]
    have h4 : numWorkers * ((sortKVs (splitKeyOf ensureSafeSplitKey) kvs).length / numWorkers + 1)
        ≤ numWorkers * chunkSizeOf numWorkers batchSize
            (sortKVs (splitKeyOf ensureSafeSplitKey) kvs).length := by
      unfold chunkSizeOf
      exact Nat.mul_le_mul (Nat.le_refl numWorkers) (le_max_left _ _)
    omega

unseal List.merge List.mergeSort extendChunk in
theorem flushBuffer_chunk_assignment_total_witness :
    1 ≤ 2
      ∧ flushChunkEnd (splitKeyOf (fun _ => none)) 1 2
          [⟨[0], [], ⟨2, 0⟩⟩, ⟨[0], [], ⟨1, 0⟩⟩, ⟨[1], [], ⟨1, 0⟩⟩] = 3 :=
  ⟨by decide,
    flushBuffer_chunk_assignment_total (fun _ => none) 1 2 (by decide)
      [⟨[0], [], ⟨2, 0⟩⟩, ⟨[0], [], ⟨1, 0⟩⟩, ⟨[1], [], ⟨1, 0⟩⟩]⟩

/-- C3: with quantization granularity d strictly positive, each resolved
span whose timestamp is strictly after the initial scan timestamp has its
timestamp replaced, before being forwarded into the frontier, by the
largest multiple of d not exceeding its wall time, with logical zeroed;
the quantized timestamp never exceeds the observed one, spans at or below
the initial-scan floor are forwarded unquantized, and bufferCheckpoint
forwards exactly the transformed timestamps. -/
theorem bufferCheckpoint_quantization
    (d : Int) (initialScanTS : HLC) (f : List (Span × HLC)) (rs : List RSpan)
    (r : RSpan) (hd : 0 < d) (hwall : 0 ≤ r.ts.wall) (hlog : 0 ≤ r.ts.logical) :
    (r.ts.after initialScanTS = true →
      (quantizeTS d initialScanTS r.ts).logical = 0
        ∧ d ∣ (quantizeTS d initialScanTS r.ts).wall
        ∧ (quantizeTS d initialScanTS r.ts).wall ≤ r.ts.wall
        ∧ r.ts.wall - (quantizeTS d initialScanTS r.ts).wall < d
        ∧ (∀ m : Int, d ∣ m → m ≤ r.ts.wall → m ≤ (quantizeTS d initialScanTS r.ts).wall)
        ∧ (quantizeTS d initialScanTS r.ts).lessEq r.ts = true)
    ∧ (r.ts.after initialScanTS = false → quantizeTS d initialScanTS r.ts = r.ts)
    ∧ bufferCheckpointModel d initialScanTS f (some rs)
        = .ok (rs.foldl
            (fun acc x => frontierForward acc x.span (quantizeTS d initialScanTS x.ts)) f) := by
  refine ⟨?_, ?_, rfl⟩
  · intro hafter
    unfold quantizeTS
    rw [if_pos ⟨hd, hafter⟩]
    have htm : r.ts.wall.tmod d = r.ts.wall % d :=
      Int.tmod_eq_emod hwall (le_of_lt hd)
    have hdm := Int.ediv_add_emod r.ts.wall d
    have hm0 := Int.emod_nonneg r.ts.wall (by omega : d ≠ 0)
    have hmlt := Int.emod_lt_of_pos r.ts.wall hd
    refine ⟨rfl, ?_, ?_, ?_, ?_, ?_⟩
    · rw [htm]
      refine ⟨r.ts.wall / d, ?_⟩
      show r.ts.wall - r.ts.wall % d = d * (r.ts.wall / d)
      omega
    · rw [htm]
      show r.ts.wall - r.ts.wall % d ≤ r.ts.wall
      omega
    · rw [htm]
      show r.ts.wall - (r.ts.wall - r.ts.wall % d) < d
      omega
    · intro m hdvd hmle
      obtain ⟨k, rfl⟩ := hdvd
      have hk : k ≤ r.ts.wall / d := by
        rw [Int.le_ediv_iff_mul_le hd]
        have := mul_comm k d
        omega
      have h5 : d * k ≤ d * (r.ts.wall / d) :=
        Int.mul_le_mul_of_nonneg_left hk (le_of_lt hd)
      rw [htm]
      show d * k ≤ r.ts.wall - r.ts.wall % d
      omega
    · rw [HLC.lessEq_iff, htm]
      show r.ts.wall - r.ts.wall % d < r.ts.wall
          ∨ (r.ts.wall - r.ts.wall % d = r.ts.wall ∧ (0 : Int) ≤ r.ts.logical)
      omega
  · intro hnot
    unfold quantizeTS
    rw [if_neg]
    intro hcontra
    rw [hcontra.2] at hnot
    exact Bool.noConfusion hnot

theorem bufferCheckpoint_quantization_witness :
    (0 : Int) < 5 ∧ (0 : Int) ≤ 13
      ∧ (HLC.after ⟨13, 0⟩ ⟨2, 0⟩ = true →
          (quantizeTS 5 ⟨2, 0⟩ ⟨13, 0⟩).logical = 0
            ∧ (5 : Int) ∣ (quantizeTS 5 ⟨2, 0⟩ ⟨13, 0⟩).wall
            ∧ (quantizeTS 5 ⟨2, 0⟩ ⟨13, 0⟩).wall ≤ (13 : Int)
            ∧ (13 : Int) - (quantizeTS 5 ⟨2, 0⟩ ⟨13, 0⟩).wall < 5
            ∧ (∀ m : Int, (5 : Int) ∣ m → m ≤ 13 → m ≤ (quantizeTS 5 ⟨2, 0⟩ ⟨13, 0⟩).wall)
            ∧ (quantizeTS 5 ⟨2, 0⟩ ⟨13, 0⟩).lessEq ⟨13, 0⟩ = true) :=
  ⟨by decide, by decide,
    (bufferCheckpoint_quantization 5 ⟨2, 0⟩ [] [] ⟨([], []), ⟨13, 0⟩⟩
      (by decide) (by decide) (by decide)).1⟩

/-- C4 counterexample: with the hard maximum byte size setting at 0 and
the target length at its default 32, the empty buffer has byte size at
least the configured hard maximum, yet shouldFlushOnKVSize reports
mustFlush = false, because the code only forces a flush when the setting
is positive. -/
theorem shouldFlushOnKVSize_claim_counterexample :
    (0 : Int) ≤ (NewIngestionBuffer.curKVBatchSize : Int)
      ∧ (NewIngestionBuffer.shouldFlushOnKVSize 0 32).2 = false := by
  decide

/-- C4 amended: provided the configured hard maximum byte size is
positive, shouldFlushOnKVSize returns (true, true) when the buffer byte
size is at least the hard maximum; it returns (true, false) when the row
count is at least the target length while the byte size is below the hard
maximum; and it returns (false, false) below both thresholds. -/
theorem shouldFlushOnKVSize_spec (b : ingestionBuffer) (kvBufMax kvBufLenTarget : Int) :
    (0 < kvBufMax → kvBufMax ≤ (b.curKVBatchSize : Int) →
        b.shouldFlushOnKVSize kvBufMax kvBufLenTarget = (true, true))
    ∧ ((b.curKVBatchSize : Int) < kvBufMax → kvBufLenTarget ≤ (b.curKVBatch.length : Int) →
        b.shouldFlushOnKVSize kvBufMax kvBufLenTarget = (true, false))
    ∧ ((b.curKVBatchSize : Int) < kvBufMax → (b.curKVBatch.length : Int) < kvBufLenTarget →
        b.shouldFlushOnKVSize kvBufMax kvBufLenTarget = (false, false)) := by
  unfold ingestionBuffer.shouldFlushOnKVSize
  refine ⟨?_, ?_, ?_⟩
  · intro h1 h2
    rw [if_pos ⟨h1, h2⟩]
  · intro h1 h2
    rw [if_neg (by omega), if_pos h2]
  · intro h1 h2
    rw [if_neg (by omega), if_neg (by omega)]

theorem shouldFlushOnKVSize_spec_witness :
    (0 : Int) < 1
      ∧ (addAll NewIngestionBuffer [⟨[0], [], ⟨1, 0⟩⟩]).shouldFlushOnKVSize 1 32
          = (true, true) :=
  ⟨by decide,
    (shouldFlushOnKVSize_spec (addAll NewIngestionBuffer [⟨[0], [], ⟨1, 0⟩⟩]) 1 32).1
      (by decide) (by decide)⟩

/-- C10: with a non-positive hard maximum byte size setting the buffer is
never forced to flush no matter how large it grows, and with a
non-positive target length even the empty buffer requests a flush,
because the length comparison is a plain greater-or-equal against the raw
setting value. -/
theorem shouldFlushOnKVSize_nonpositive_settings
    (b : ingestionBuffer) (kvBufMax kvBufLenTarget : Int) :
    (kvBufMax ≤ 0 → (b.shouldFlushOnKVSize kvBufMax kvBufLenTarget).2 = false)
    ∧ (kvBufLenTarget ≤ 0 →
        (NewIngestionBuffer.shouldFlushOnKVSize kvBufMax kvBufLenTarget).1 = true) := by
  constructor
  · intro h
    unfold ingestionBuffer.shouldFlushOnKVSize
    rw [if_neg (by omega)]
    split_ifs <;> rfl
  · intro h
    have hsize : (NewIngestionBuffer.curKVBatchSize : Int) = 0 := rfl
    have hlen : (NewIngestionBuffer.curKVBatch.length : Int) = 0 := rfl
    unfold ingestionBuffer.shouldFlushOnKVSize
    split_ifs with h1 h2
    · rfl
    · rfl
    · exact absurd (by omega) h2

theorem shouldFlushOnKVSize_nonpositive_settings_witness :
    ((addAll NewIngestionBuffer [⟨[0], [], ⟨1, 0⟩⟩]).shouldFlushOnKVSize (-1) 99).2 = false
      ∧ (NewIngestionBuffer.shouldFlushOnKVSize 100 0).1 = true :=
  ⟨(shouldFlushOnKVSize_nonpositive_settings
      (addAll NewIngestionBuffer [⟨[0], [], ⟨1, 0⟩⟩]) (-1) 99).1 (by decide),
    (shouldFlushOnKVSize_nonpositive_settings NewIngestionBuffer 100 0).2 (by decide)⟩

/-- C5: maybeFlush is a no-op, returning without flushing and leaving the
state unchanged, whenever a flush is already in flight, or whenever the
buffer holds no mutations and the frontier has not advanced past the last
flushed frontier watermark; in every other case it behaves exactly as
flush. -/
theorem maybeFlush_spec (handoffAccepted : Bool) (st : FlushState) :
    (st.flushInProgress = true → maybeFlushModel handoffAccepted st = (st, none))
    ∧ (st.buffer.curKVBatch = [] → st.frontierTS.lessEq st.lastFlushFrontier = true →
        maybeFlushModel handoffAccepted st = (st, none))
    ∧ (st.flushInProgress = false →
        ¬(st.buffer.curKVBatch = [] ∧ st.frontierTS.lessEq st.lastFlushFrontier = true) →
        maybeFlushModel handoffAccepted st = flushModel handoffAccepted st) := by
  refine ⟨?_, ?_, ?_⟩
  · intro h
    unfold maybeFlushModel
    rw [if_pos h]
  · intro h1 h2
    unfold maybeFlushModel
    split_ifs with ha hb
    · rfl
    · rfl
    · exact absurd ⟨h1, h2⟩ hb
  · intro h1 h2
    unfold maybeFlushModel
    rw [if_neg (by rw [h1]; decide), if_neg h2]

theorem maybeFlush_spec_witness :
    maybeFlushModel true ⟨NewIngestionBuffer, [], ⟨0, 0⟩, ⟨0, 0⟩, true⟩
        = (⟨NewIngestionBuffer, [], ⟨0, 0⟩, ⟨0, 0⟩, true⟩, none)
      ∧ maybeFlushModel true
            ⟨addAll NewIngestionBuffer [⟨[0], [], ⟨1, 0⟩⟩], [], ⟨0, 0⟩, ⟨0, 0⟩, false⟩
          = flushModel true
              ⟨addAll NewIngestionBuffer [⟨[0], [], ⟨1, 0⟩⟩], [], ⟨0, 0⟩, ⟨0, 0⟩, false⟩ :=
  ⟨(maybeFlush_spec true ⟨NewIngestionBuffer, [], ⟨0, 0⟩, ⟨0, 0⟩, true⟩).1 (by decide),
    (maybeFlush_spec true
        ⟨addAll NewIngestionBuffer [⟨[0], [], ⟨1, 0⟩⟩], [], ⟨0, 0⟩, ⟨0, 0⟩, false⟩).2.2
      (by decide) (by decide)⟩

/-- C6: every checkpoint constructed at flush time contains only frontier
entries with a non-empty resolved timestamp; under the frontier invariant
that entries carry pairwise-distinct spans, each (span, timestamp) pair
appears at most once; and flushBuffer returns the checkpoint unchanged
for downstream delivery, also when the flushed buffer holds no
mutations. -/
theorem flush_checkpoint_wellformed (sk : KeyValue → RKey) (batchSize numWorkers : Nat)
    (entries : List (Span × HLC)) (b : ingestionBuffer)
    (hdisj : entries.Pairwise (fun x y => x.1 ≠ y.1)) :
    (∀ e ∈ mkCheckpoint entries, e.2.isEmpty = false)
    ∧ (mkCheckpoint entries).Pairwise (fun x y => x ≠ y)
    ∧ (flushBufferModel sk batchSize numWorkers ⟨b, mkCheckpoint entries⟩).2
        = mkCheckpoint entries := by
  refine ⟨?_, ?_, ?_⟩
  · intro e he
    have hp := List.of_mem_filter he
    simpa using hp
  · refine (List.Pairwise.filter _ hdisj).imp ?_
    intro x y hxy hc
    exact hxy (by rw [hc])
  · unfold flushBufferModel
    split_ifs <;> rfl

theorem flush_checkpoint_wellformed_witness :
    (mkCheckpoint [(([0], [1]), ⟨5, 0⟩), (([1], [2]), ⟨0, 0⟩)]).Pairwise (fun x y => x ≠ y)
      ∧ (flushBufferModel (splitKeyOf (fun _ => none)) 1 2
            ⟨NewIngestionBuffer, mkCheckpoint [(([0], [1]), ⟨5, 0⟩), (([1], [2]), ⟨0, 0⟩)]⟩).2
          = mkCheckpoint [(([0], [1]), ⟨5, 0⟩), (([1], [2]), ⟨0, 0⟩)] :=
  ⟨(flush_checkpoint_wellformed (splitKeyOf (fun _ => none)) 1 2
      [(([0], [1]), ⟨5, 0⟩), (([1], [2]), ⟨0, 0⟩)] NewIngestionBuffer (by decide)).2.1,
    (flush_checkpoint_wellformed (splitKeyOf (fun _ => none)) 1 2
      [(([0], [1]), ⟨5, 0⟩), (([1], [2]), ⟨0, 0⟩)] NewIngestionBuffer (by decide)).2.2⟩

/-! ### order facts for hlc timestamps -/

theorem HLC.lessEq_refl (t : HLC) : t.lessEq t = true := by
  rw [HLC.lessEq_iff]
  omega

theorem HLC.lessEq_trans {a b c : HLC} (h1 : a.lessEq b = true) (h2 : b.lessEq c = true) :
    a.lessEq c = true := by
  rw [HLC.lessEq_iff] at h1 h2 ⊢
  omega

theorem HLC.lessEq_of_less {a b : HLC} (h : a.less b = true) : a.lessEq b = true := by
  rw [HLC.less_iff] at h
  rw [HLC.lessEq_iff]
  omega

theorem HLC.lessEq_of_not_less {a b : HLC} (h : a.less b = false) : b.lessEq a = true := by
  have hp : ¬(a.wall < b.wall ∨ (a.wall = b.wall ∧ a.logical < b.logical)) := by
    rw [← HLC.less_iff, h]
    decide
  rw [HLC.lessEq_iff]
  omega

theorem HLC.lessEq_antisymm {a b : HLC} (h1 : a.lessEq b = true) (h2 : b.lessEq a = true) :
    a = b := by
  rw [HLC.lessEq_iff] at h1 h2
  cases a
  cases b
  simp only [HLC.mk.injEq]
  dsimp only at h1 h2
  omega

/-! ### accounting of the ingestion buffer -/

theorem addAll_cons (b : ingestionBuffer) (kv : KeyValue) (rest : List KeyValue) :
    addAll b (kv :: rest) = addAll (b.addKV kv) rest := rfl

theorem addAll_size : ∀ (kvs : List KeyValue) (b : ingestionBuffer),
    (addAll b kvs).curKVBatchSize = b.curKVBatchSize + (kvs.map KeyValue.size).sum
  | [], b => by simp [addAll]
  | kv :: rest, b => by
    rw [addAll_cons, addAll_size rest (b.addKV kv)]
    show (b.curKVBatchSize + kv.size) + (rest.map KeyValue.size).sum
      = b.curKVBatchSize + ((kv :: rest).map KeyValue.size).sum
    rw [List.map_cons, List.sum_cons]
    omega

theorem addAll_batch : ∀ (kvs : List KeyValue) (b : ingestionBuffer),
    (addAll b kvs).curKVBatch = b.curKVBatch ++ kvs
  | [], b => by simp [addAll]
  | kv :: rest, b => by
    rw [addAll_cons, addAll_batch rest (b.addKV kv)]
    show (b.curKVBatch ++ [kv]) ++ rest = b.curKVBatch ++ (kv :: rest)
    rw [List.append_assoc, List.singleton_append]

theorem addKV_min (b : ingestionBuffer) (kv : KeyValue) :
    (b.addKV kv).minTimestamp.lessEq b.minTimestamp = true
      ∧ (b.addKV kv).minTimestamp.lessEq kv.valTS = true
      ∧ ((b.addKV kv).minTimestamp = b.minTimestamp
          ∨ (b.addKV kv).minTimestamp = kv.valTS) := by
  cases hc : kv.valTS.less b.minTimestamp with
  | true =>
    have hmin : (b.addKV kv).minTimestamp = kv.valTS := by
      show (if kv.valTS.less b.minTimestamp = true then kv.valTS else b.minTimestamp)
        = kv.valTS
      rw [if_pos hc]
    rw [hmin]
    exact ⟨HLC.lessEq_of_less hc, HLC.lessEq_refl _, Or.inr rfl⟩
  | false =>
    have hmin : (b.addKV kv).minTimestamp = b.minTimestamp := by
      show (if kv.valTS.less b.minTimestamp = true then kv.valTS else b.minTimestamp)
        = b.minTimestamp
      rw [if_neg (by rw [hc]; decide)]
    rw [hmin]
    exact ⟨HLC.lessEq_refl _, HLC.lessEq_of_not_less hc, Or.inl rfl⟩

theorem addAll_min : ∀ (kvs : List KeyValue) (b : ingestionBuffer),
    ((addAll b kvs).minTimestamp = b.minTimestamp
        ∨ (addAll b kvs).minTimestamp ∈ kvs.map (fun kv => kv.valTS))
      ∧ (addAll b kvs).minTimestamp.lessEq b.minTimestamp = true
      ∧ (∀ kv ∈ kvs, (addAll b kvs).minTimestamp.lessEq kv.valTS = true)
  | [], b => ⟨Or.inl rfl, HLC.lessEq_refl _, by simp⟩
  | kv :: rest, b => by
    rw [addAll_cons]
    obtain ⟨ihmem, ihle, ihall⟩ := addAll_min rest (b.addKV kv)
    obtain ⟨hle_b, hle_kv, hcases⟩ := addKV_min b kv
    refine ⟨?_, ?_, ?_⟩
    · rcases ihmem with he | hm
      · rcases hcases with hb | hk
        · exact Or.inl (he.trans hb)
        · refine Or.inr ?_
          rw [List.map_cons, he, hk]
          exact List.mem_cons_self _ _
      · refine Or.inr ?_
        rw [List.map_cons]
        exact List.mem_cons_of_mem _ hm
    · exact HLC.lessEq_trans ihle hle_b
    · intro x hx
      rcases List.mem_cons.mp hx with rfl | hx2
      · exact HLC.lessEq_trans ihle hle_kv
      · exact ihall x hx2

/-- C8: after any sequence of addKV calls on a fresh (or reset) buffer,
the byte size equals the sum of the sizes of the added pairs, the batch
is exactly the added sequence, the minimum timestamp is a lower bound of
all added value timestamps and is attained (MaxTimestamp if none were
added), and reset returns any buffer to the empty state. -/
theorem buffer_accounting (kvs : List KeyValue) (b : ingestionBuffer)
    (hvalid : ∀ kv ∈ kvs, kv.valTS.valid) :
    (addAll NewIngestionBuffer kvs).curKVBatchSize = (kvs.map KeyValue.size).sum
    ∧ (addAll NewIngestionBuffer kvs).curKVBatch = kvs
    ∧ (∀ kv ∈ kvs, (addAll NewIngestionBuffer kvs).minTimestamp.lessEq kv.valTS = true)
    ∧ (kvs = [] → (addAll NewIngestionBuffer kvs).minTimestamp = HLC.maxTimestamp)
    ∧ (kvs ≠ [] →
        (addAll NewIngestionBuffer kvs).minTimestamp ∈ kvs.map (fun kv => kv.valTS))
    ∧ b.reset = NewIngestionBuffer := by
  obtain ⟨hmem, _, hall⟩ := addAll_min kvs NewIngestionBuffer
  refine ⟨?_, ?_, hall, ?_, ?_, rfl⟩
  · rw [addAll_size]
    show 0 + (kvs.map KeyValue.size).sum = (kvs.map KeyValue.size).sum
    omega
  · rw [addAll_batch]
    exact List.nil_append kvs
  · intro h
    subst h
    rfl
  · intro hne
    rcases hmem with he | hm
    · cases kvs with
      | nil => exact absurd rfl hne
      | cons kv0 rest =>
        have h1 : HLC.maxTimestamp.lessEq kv0.valTS = true := by
          have hk := hall kv0 (List.mem_cons_self _ _)
          rw [he] at hk
          exact hk
        have h2 : kv0.valTS.lessEq HLC.maxTimestamp = true :=
          HLC.valid_lessEq_max (hvalid kv0 (List.mem_cons_self _ _))
        have h3 : HLC.maxTimestamp = kv0.valTS := HLC.lessEq_antisymm h1 h2
        rw [he]
        show HLC.maxTimestamp ∈ (kv0 :: rest).map (fun kv => kv.valTS)
        rw [h3, List.map_cons]
        exact List.mem_cons_self _ _
    · exact hm

theorem buffer_accounting_witness :
    (addAll NewIngestionBuffer
        ([⟨[0], [], ⟨5, 0⟩⟩, ⟨[1], [], ⟨3, 0⟩⟩] : List KeyValue)).curKVBatchSize
        = (([⟨[0], [], ⟨5, 0⟩⟩, ⟨[1], [], ⟨3, 0⟩⟩] : List KeyValue).map KeyValue.size).sum
      ∧ (addAll NewIngestionBuffer
            ([⟨[0], [], ⟨5, 0⟩⟩, ⟨[1], [], ⟨3, 0⟩⟩] : List KeyValue)).minTimestamp
          ∈ ([⟨[0], [], ⟨5, 0⟩⟩, ⟨[1], [], ⟨3, 0⟩⟩] : List KeyValue).map
              (fun kv => kv.valTS) :=
  ⟨(buffer_accounting ([⟨[0], [], ⟨5, 0⟩⟩, ⟨[1], [], ⟨3, 0⟩⟩] : List KeyValue)
      NewIngestionBuffer (by decide)).1,
    (buffer_accounting ([⟨[0], [], ⟨5, 0⟩⟩, ⟨[1], [], ⟨3, 0⟩⟩] : List KeyValue)
      NewIngestionBuffer (by decide)).2.2.2.2.1 (by decide)⟩

/-- C9: evaluation of handleEvent dispatch at the failing input and at
the other malformed or unsupported events. A KV event whose kv slice is
missing causes a runtime panic, not an ordinary error: handleEvent
records AdmitLatency from event.GetKVs()[0] before the switch, so a nil
(or empty) kv slice hits an index-out-of-range panic before the nil check
inside bufferKVs can return an error. A checkpoint event with a nil
resolved-span slice, an SSTable event, a DeleteRange event, and an
unknown event type return ordinary errors, and a split event changes no
state and yields no error. -/
theorem handleEvent_nil_kv_panics :
    handleEventDispatch 5 ⟨0, 0⟩ (.kvEvent none) ⟨NewIngestionBuffer, []⟩ = .panics
    ∧ handleEventDispatch 5 ⟨0, 0⟩ (.kvEvent (some [])) ⟨NewIngestionBuffer, []⟩ = .panics
    ∧ handleEventDispatch 5 ⟨0, 0⟩ (.checkpointEvent none) ⟨NewIngestionBuffer, []⟩
        = .fails "checkpoint event expected to have resolved spans"
    ∧ handleEventDispatch 5 ⟨0, 0⟩ .sstableEvent ⟨NewIngestionBuffer, []⟩
        = .fails "unexpected event for online stream"
    ∧ handleEventDispatch 5 ⟨0, 0⟩ .deleteRangeEvent ⟨NewIngestionBuffer, []⟩
        = .fails "unexpected event for online stream"
    ∧ handleEventDispatch 5 ⟨0, 0⟩ .unknownEvent ⟨NewIngestionBuffer, []⟩
        = .fails "unknown streaming event type"
    ∧ handleEventDispatch 5 ⟨0, 0⟩ .splitEvent ⟨NewIngestionBuffer, []⟩
        = .ok ⟨NewIngestionBuffer, []⟩ := by
  refine ⟨rfl, rfl, rfl, rfl, rfl, rfl, rfl⟩

end LRW
